import Mathlib

/-
Verification of the CDEC stage/flow retrieval core (the script `CDEC data pull.py`):
the row-cleaning pipeline of `fetch_cdec`, the two-phase earliest-date search of
`find_earliest_date`, the chunked collection loop of `fetch_all_in_chunks`, and the
outer-join combination step of `export_station_all_time`.

Modelling choices, stated once here:
* Timestamps in the cleaning / chunking pipeline are modelled at day granularity as
  `Int` (days since an arbitrary epoch); nothing in the verified fragments depends on
  sub-day resolution.
* float64 values are modelled as `Int`: no verified property involves fractional
  arithmetic, and the sentinel comparison `value != -9999` is exact.
* `pd.to_datetime(..., errors = coerce)` and `pd.to_numeric(..., errors = coerce)`
  produce NaT/NaN on failure; a raw JSON record is therefore modelled by the two
  parse outcomes `Option Int` (dt) and `Option Int` (val), and the notna filters of
  the source become matches on those options.
* `sort_values` is modelled by insertion sort on the timestamp key.  The source's
  pandas sort is deterministic as well; no verified property depends on the order of
  rows that share a timestamp.
* Network access is abstracted: the probing and chunking functions take a service
  function `svc` mapping a requested inclusive window to the cleaned Series that
  `fetch_cdec` would return for it.
-/

namespace CDEC

/-- One raw JSON record after the two coercing parses of `fetch_cdec`
(lines 30-31 of the source): `dt` is the result of `pd.to_datetime(rec.date)`,
`val` the result of `pd.to_numeric(rec.value)`; `none` models NaT/NaN. -/
structure RawRec where
  dt : Option Int
  val : Option Int
deriving DecidableEq

/-- One cleaned reading: a non-null timestamp and a non-null numeric value
(the `datetime`/`value` columns of the returned frame). -/
structure Row where
  dt : Int
  val : Int
deriving DecidableEq

/-- The sentinel missing-value constant filtered by `df[df.value != -9999]`. -/
def SENTINEL : Int := -9999

/-- Ordering of rows by timestamp, the key of every `sort_values` call. -/
def rowLe (a b : Row) : Prop := a.dt ≤ b.dt

instance : DecidableRel rowLe := fun a b => inferInstanceAs (Decidable (a.dt ≤ b.dt))

instance : IsTotal Row rowLe := ⟨fun a b => Int.le_total a.dt b.dt⟩

instance : IsTrans Row rowLe := ⟨fun _ _ _ => Int.le_trans⟩

/-- Embeds `df.sort_values(datetime)` on a cleaned frame. -/
def sortByDt (l : List Row) : List Row := List.insertionSort rowLe l

/-- The notna mask of source line 33: a record survives exactly when both coercing
parses succeeded, and then contributes its parsed timestamp and value. -/
def parseRec (rec : RawRec) : Option Row :=
  match rec.dt, rec.val with
  | some d, some v => some (Row.mk d v)
  | _, _ => none

/-- The row-cleaning pipeline of `fetch_cdec` (source lines 30-36), applied in the
source's order: keep rows whose timestamp and value both parsed, drop rows whose
value equals the sentinel, then sort ascending by timestamp. -/
def cleanRows (recs : List RawRec) : List Row :=
  sortByDt ((recs.filterMap parseRec).filter fun r => decide (r.val ≠ SENTINEL))

/-- Embeds `fetch_cdec` after the transport step: `none` models a null JSON payload
(`if not data` also catches an empty array, returning an empty frame); otherwise the
cleaning pipeline runs on the parsed records. -/
def fetch_cdec : Option (List RawRec) → List Row
  | none => []
  | some recs => if recs.isEmpty then [] else cleanRows recs

/-! Chunked collection (`fetch_all_in_chunks`, source lines 77-98).  The loop is
modelled with explicit fuel; `none` means the fuel ran out before the cursor passed
`end_date`, i.e. the source loop would still be running after that many iterations. -/

/-- The window loop of `fetch_all_in_chunks`: starting from cursor `cur`, while
`cur <= end_date` emit the inclusive window `(cur, min (cur + chunk_days) end_date)`
and advance the cursor to the window's end plus one day (source lines 86-91). -/
def chunkWindows (endD chunk : Int) : Nat → Int → Option (List (Int × Int))
  | fuel + 1, cur =>
    if cur ≤ endD then
      (chunkWindows endD chunk fuel (min (cur + chunk) endD + 1)).map
        fun l => (cur, min (cur + chunk) endD) :: l
    else some []
  | 0, cur => if cur ≤ endD then none else some []

/-- Keep-first deduplication by timestamp with an accumulator of already-seen keys:
the recursion behind `drop_duplicates(subset = datetime)` (default keep = first). -/
def dedupGo : List Row → List Int → List Row
  | [], _ => []
  | r :: rs, seen =>
    if r.dt ∈ seen then dedupGo rs seen else r :: dedupGo rs (r.dt :: seen)

/-- Embeds `out.drop_duplicates(subset = datetime)`: keep the first occurrence of
each timestamp, in input order. -/
def dedupByDt (l : List Row) : List Row := dedupGo l []

/-- Embeds `fetch_all_in_chunks` (source lines 77-98) over an abstract service
`svc` (the cleaned Series `fetch_cdec` returns for each requested inclusive
window; the source interleaves the per-window fetches with the loop, which is the
same thing for a deterministic service): compute the windows, fetch one frame per
window, and unless the frame list is empty (`if not frames`), concatenate,
deduplicate timestamps keeping the first occurrence, and sort ascending. -/
def fetch_all_in_chunks (svc : Int → Int → List Row)
    (startD endD chunk : Int) (fuel : Nat) : Option (List Row) :=
  (chunkWindows endD chunk fuel startD).map fun ws =>
    let frames := ws.map fun w => svc w.1 w.2
    if frames.isEmpty then [] else sortByDt (dedupByDt frames.flatten)

/-- An honest remote service drawn from a fixed global table `D` of readings: a
window request returns exactly the readings whose timestamp lies inside the
inclusive window, cleaned and sorted the way `fetch_cdec` returns them. -/
def svcOfTable (D : List Row) (a b : Int) : List Row :=
  sortByDt (D.filter fun r => decide (a ≤ r.dt ∧ r.dt ≤ b))

/-! Outer-join combination (`export_station_all_time`, source lines 119-122):
`pd.merge(stage, flow, on = datetime, how = outer).sort_values(datetime)`. -/

/-- One row of the combined table: timestamp, optional stage value, optional flow
value (absent when that side has no reading at the timestamp). -/
structure Comb where
  dt : Int
  stage : Option Int
  flow : Option Int
deriving DecidableEq

/-- Ordering of combined rows by timestamp. -/
def combLe (a b : Comb) : Prop := a.dt ≤ b.dt

instance : DecidableRel combLe := fun a b => inferInstanceAs (Decidable (a.dt ≤ b.dt))

instance : IsTotal Comb combLe := ⟨fun a b => Int.le_total a.dt b.dt⟩

instance : IsTrans Comb combLe := ⟨fun _ _ _ => Int.le_trans⟩

/-- The value a frame holds at timestamp `t`, if any. -/
def lookupVal (l : List Row) (t : Int) : Option Int :=
  (l.find? fun r => decide (r.dt = t)).map fun r => r.val

/-- Does a frame hold any reading at timestamp `t`. -/
def hasDt (l : List Row) (t : Int) : Bool :=
  l.any fun r => decide (r.dt = t)

/-- Embeds `pd.merge(stage, flow, on = datetime, how = outer)` followed by
`sort_values(datetime)`, for key-unique inputs (which the upstream
`drop_duplicates` guarantees): one row per stage timestamp carrying the matching
flow value if present, plus one row for each flow timestamp with no stage match,
sorted ascending by timestamp. -/
def combine (a b : List Row) : List Comb :=
  List.insertionSort combLe
    ((a.map fun r => Comb.mk r.dt (some r.val) (lookupVal b r.dt)) ++
      ((b.filter fun r => !hasDt a r.dt).map fun r => Comb.mk r.dt none (some r.val)))

/-! Earliest-date search (`find_earliest_date`, source lines 39-74).  This
component does calendar arithmetic only at year granularity (build January 1 and
December 31 of a year, read off the year of a date, count years down), so a date
is modelled as a year paired with a day-of-year ordinal, ordered
lexicographically; January 1 of year `y` is `(y, 1)` and the year's upper bound
`(y, 366)` plays December 31.  The service argument plays the same role as in
`fetch_all_in_chunks`. -/

/-- A calendar date at the granularity `find_earliest_date` uses: year and
day-of-year ordinal (1 = January 1; 366 bounds December 31), ordered
lexicographically. -/
structure YDate where
  y : Int
  d : Int
deriving DecidableEq

instance : LE YDate := ⟨fun a b => a.y < b.y ∨ (a.y = b.y ∧ a.d ≤ b.d)⟩

instance (a b : YDate) : Decidable (a ≤ b) :=
  inferInstanceAs (Decidable (a.y < b.y ∨ (a.y = b.y ∧ a.d ≤ b.d)))

/-- January 1 of year `y` (the `date(y, 1, 1)` window starts of the source). -/
def jan1 (y : Int) : YDate := ⟨y, 1⟩

/-- The last day of year `y` (the `date(y, 12, 31)` window ends of the source). -/
def dec31 (y : Int) : YDate := ⟨y, 366⟩

/-- A reading as seen by the earliest-date search: its date and value. -/
structure YRow where
  dt : YDate
  val : Int
deriving DecidableEq

/-- The smaller of two dates. -/
def ydMin (a b : YDate) : YDate := if a ≤ b then a else b

/-- Minimum date of a non-empty frame: `df[datetime].min().date()` of the source
(day granularity, so taking `.date()` of the minimal datetime is taking the
minimal date). -/
def serMin (r : YRow) (rs : List YRow) : YDate :=
  rs.foldl (fun m x => ydMin m x.dt) r.dt

/-- The fixed ascending anchor list of the coarse probe (source line 44). -/
def probeYears : List Int := [1900, 1930, 1950, 1970, 1980, 1990, 2000, 2010]

/-- The coarse probe loop (source lines 47-54): fetch each anchor year's full
window in order and stop at the first non-empty result, recording its minimum
date; `none` when every anchor came back empty. -/
def probeLoop (svc : YDate → YDate → List YRow) : List Int → Option YDate
  | [] => none
  | y :: ys =>
    match svc (jan1 y) (dec31 y) with
    | [] => probeLoop svc ys
    | r :: rs => some (serMin r rs)

/-- Result of the narrowing loop: the final earliest date, the number of
completed (non-empty, updating) iterations, and the last year whose window the
loop fetched, if it fetched any. -/
structure NarrowRes where
  ef : YDate
  iters : Nat
  lastProbe : Option Int
deriving DecidableEq

/-- The year-by-year narrowing loop (source lines 63-73): while `y > 1900` fetch
the full previous calendar year; stop if it is empty, otherwise move the earliest
date to that window's minimum and decrement `y`.  Fuel bounds the iteration count;
the loop itself performs at most `y - 1900` iterations, so any fuel beyond that
reproduces the source loop exactly. -/
def narrowGo (svc : YDate → YDate → List YRow) : Nat → Int → YDate → NarrowRes
  | 0, _, ef => ⟨ef, 0, none⟩
  | fuel + 1, y, ef =>
    if 1900 < y then
      match svc (jan1 (y - 1)) (dec31 (y - 1)) with
      | [] => ⟨ef, 0, some (y - 1)⟩
      | r :: rs =>
        let res := narrowGo svc fuel (y - 1) (serMin r rs)
        ⟨res.ef, res.iters + 1, some (res.lastProbe.getD (y - 1))⟩
    else ⟨ef, 0, none⟩

/-- Embeds `find_earliest_date` (source lines 39-74) over an abstract service and
a `today` parameter: run the coarse probe; on failure run the single fallback
probe over January 1 2000 .. today, failing (`none`, the source's RuntimeError)
when it is empty and otherwise returning its minimum date directly; on probe
success run the narrowing loop from the found year. -/
def find_earliest (svc : YDate → YDate → List YRow) (today : YDate) : Option YDate :=
  match probeLoop svc probeYears with
  | none =>
    match svc (jan1 2000) today with
    | [] => none
    | r :: rs => some (serMin r rs)
  | some ef => some (narrowGo svc ((ef.y - 1900).toNat + 1) ef.y ef).ef

/-- An honest service for the earliest-date search, drawn from a fixed global
table of readings, mirroring `svcOfTable`; `fetch_cdec`'s final sort is omitted
because the search only tests emptiness and takes the minimum date, neither of
which can observe the order. -/
def ysvcOfTable (D : List YRow) (a b : YDate) : List YRow :=
  D.filter fun r => decide (a ≤ r.dt ∧ r.dt ≤ b)

/-! Invariant vocabulary and basic facts about the sorting and deduplication
building blocks. -/

/-- No two rows of the list share a timestamp. -/
def KeysNodup (l : List Row) : Prop := l.Pairwise fun a b => a.dt ≠ b.dt

/-- Timestamps are strictly increasing along the list. -/
def StrictByDt (l : List Row) : Prop := l.Pairwise fun a b => a.dt < b.dt

/-- Strict ordering of rows by timestamp. -/
def rowLt (a b : Row) : Prop := a.dt < b.dt

instance : IsAntisymm Row rowLt :=
  ⟨fun _ _ hab hba => absurd hab (not_lt_of_gt hba)⟩

instance : DecidablePred KeysNodup := fun l => by
  unfold KeysNodup
  exact inferInstance

theorem sortByDt_sorted (l : List Row) : List.Sorted rowLe (sortByDt l) :=
  List.sorted_insertionSort rowLe l

theorem sortByDt_perm (l : List Row) : (sortByDt l).Perm l :=
  List.perm_insertionSort rowLe l

theorem mem_sortByDt {l : List Row} {r : Row} : r ∈ sortByDt l ↔ r ∈ l :=
  (sortByDt_perm l).mem_iff

theorem keysNodup_symm : ∀ {a b : Row}, a.dt ≠ b.dt → b.dt ≠ a.dt :=
  fun h => Ne.symm h

theorem keysNodup_of_perm {l l' : List Row} (p : l.Perm l') (h : KeysNodup l) :
    KeysNodup l' :=
  (List.Perm.pairwise_iff keysNodup_symm p).mp h

theorem strictByDt_of_sorted_keysNodup {l : List Row}
    (hs : List.Sorted rowLe l) (hn : KeysNodup l) : StrictByDt l :=
  (hs.and hn).imp fun h => lt_of_le_of_ne h.1 h.2

theorem nodup_of_strictByDt {l : List Row} (h : StrictByDt l) : l.Nodup :=
  h.imp fun hlt => fun he => absurd (congrArg Row.dt he) (ne_of_lt hlt)

theorem keysNodup_of_strictByDt {l : List Row} (h : StrictByDt l) : KeysNodup l :=
  h.imp fun hlt => ne_of_lt hlt

/-- Two key-unique lists with the same members sort to the same list. -/
theorem sortByDt_eq_of_mem_iff {l₁ l₂ : List Row}
    (h₁ : KeysNodup l₁) (h₂ : KeysNodup l₂) (hm : ∀ r, r ∈ l₁ ↔ r ∈ l₂) :
    sortByDt l₁ = sortByDt l₂ := by
  have s₁ : StrictByDt (sortByDt l₁) :=
    strictByDt_of_sorted_keysNodup (sortByDt_sorted l₁)
      (keysNodup_of_perm (sortByDt_perm l₁).symm h₁)
  have s₂ : StrictByDt (sortByDt l₂) :=
    strictByDt_of_sorted_keysNodup (sortByDt_sorted l₂)
      (keysNodup_of_perm (sortByDt_perm l₂).symm h₂)
  have hperm : (sortByDt l₁).Perm (sortByDt l₂) := by
    refine (List.perm_ext_iff_of_nodup (nodup_of_strictByDt s₁)
      (nodup_of_strictByDt s₂)).mpr ?_
    intro r
    rw [mem_sortByDt, mem_sortByDt]
    exact hm r
  exact List.eq_of_perm_of_sorted (r := rowLt) hperm s₁ s₂

/-! Facts about keep-first deduplication. -/

theorem dedupGo_mem_of {l : List Row} {seen : List Int} {x : Row}
    (h : x ∈ dedupGo l seen) : x ∈ l := by
  induction l generalizing seen with
  | nil =>
    simp only [dedupGo] at h
    exact absurd h (List.not_mem_nil x)
  | cons r rs ih =>
    by_cases hs : r.dt ∈ seen
    · simp only [dedupGo, if_pos hs] at h
      exact List.mem_cons_of_mem r (ih h)
    · simp only [dedupGo, if_neg hs, List.mem_cons] at h
      rcases h with h | h
      · exact h ▸ List.mem_cons_self r rs
      · exact List.mem_cons_of_mem r (ih h)

theorem dedupGo_spec (l : List Row) (seen : List Int) :
    (∀ x ∈ dedupGo l seen, x.dt ∉ seen) ∧ KeysNodup (dedupGo l seen) := by
  induction l generalizing seen with
  | nil => exact ⟨fun x hx => absurd hx (List.not_mem_nil x), List.Pairwise.nil⟩
  | cons r rs ih =>
    by_cases hs : r.dt ∈ seen
    · simpa [dedupGo, if_pos hs] using ih seen
    · obtain ⟨hout, hnd⟩ := ih (r.dt :: seen)
      simp only [dedupGo, if_neg hs]
      constructor
      · intro x hx
        rcases List.mem_cons.mp hx with h | h
        · exact h ▸ hs
        · exact fun hmem => hout x h (List.mem_cons_of_mem _ hmem)
      · exact List.Pairwise.cons
          (fun x hx => fun he => hout x hx (he ▸ List.mem_cons_self _ _)) hnd

theorem dedupGo_eq_self {l : List Row} {seen : List Int}
    (hout : ∀ x ∈ l, x.dt ∉ seen) (hnd : KeysNodup l) : dedupGo l seen = l := by
  induction l generalizing seen with
  | nil => rfl
  | cons r rs ih =>
    have hs : r.dt ∉ seen := hout r (List.mem_cons_self r rs)
    simp only [dedupGo, if_neg hs]
    refine congrArg (r :: ·) (ih ?_ (List.Pairwise.of_cons hnd))
    intro x hx
    simp only [List.mem_cons]
    push_neg
    refine ⟨?_, hout x (List.mem_cons_of_mem r hx)⟩
    exact fun he => (List.rel_of_pairwise_cons hnd hx) he.symm

theorem dedupByDt_keysNodup (l : List Row) : KeysNodup (dedupByDt l) :=
  (dedupGo_spec l []).2

theorem dedupByDt_eq_self {l : List Row} (hnd : KeysNodup l) : dedupByDt l = l :=
  dedupGo_eq_self (fun x _ => List.not_mem_nil x.dt) hnd

theorem dedupGo_find? {l : List Row} {seen : List Int} {t : Int} (ht : t ∉ seen) :
    (dedupGo l seen).find? (fun x => decide (x.dt = t)) =
      l.find? fun x => decide (x.dt = t) := by
  induction l generalizing seen with
  | nil => rfl
  | cons r rs ih =>
    by_cases hs : r.dt ∈ seen
    · have hne : ¬(decide (r.dt = t)) = true := by
        simp only [decide_eq_true_eq]
        exact fun he => ht (he ▸ hs)
      rw [dedupGo, if_pos hs,
        @List.find?_cons_of_neg _ (fun x => decide (x.dt = t)) r rs hne, ih ht]
    · by_cases he : r.dt = t
      · have hp : (decide (r.dt = t)) = true := decide_eq_true he
        rw [dedupGo, if_neg hs,
          @List.find?_cons_of_pos _ (fun x => decide (x.dt = t)) r _ hp,
          @List.find?_cons_of_pos _ (fun x => decide (x.dt = t)) r rs hp]
      · have hne : ¬(decide (r.dt = t)) = true := by
          simpa only [decide_eq_true_eq] using he
        rw [dedupGo, if_neg hs,
          @List.find?_cons_of_neg _ (fun x => decide (x.dt = t)) r _ hne,
          @List.find?_cons_of_neg _ (fun x => decide (x.dt = t)) r rs hne]
        refine ih ?_
        simp only [List.mem_cons]
        push_neg
        exact ⟨fun h => he h.symm, ht⟩

/-- In a key-unique list, a row sits at timestamp `t` exactly when the first
find at `t` returns it. -/
theorem find?_eq_iff_mem {l : List Row} {t : Int} {r : Row} (hnd : KeysNodup l) :
    (r ∈ l ∧ r.dt = t) ↔ l.find? (fun x => decide (x.dt = t)) = some r := by
  induction l with
  | nil => simp
  | cons a as ih =>
    by_cases he : a.dt = t
    · rw [@List.find?_cons_of_pos _ (fun x => decide (x.dt = t)) a as
        (decide_eq_true he)]
      simp only [Option.some.injEq, List.mem_cons]
      constructor
      · rintro ⟨h | h, ht⟩
        · exact h.symm
        · exact absurd (ht.trans he.symm).symm (List.rel_of_pairwise_cons hnd h)
      · rintro rfl
        exact ⟨Or.inl rfl, he⟩
    · rw [@List.find?_cons_of_neg _ (fun x => decide (x.dt = t)) a as
        (by simpa only [decide_eq_true_eq] using he)]
      rw [← ih (List.Pairwise.of_cons hnd)]
      simp only [List.mem_cons]
      constructor
      · rintro ⟨h | h, ht⟩
        · exact absurd (h ▸ ht) he
        · exact ⟨h, ht⟩
      · rintro ⟨h, ht⟩
        exact ⟨Or.inr h, ht⟩

/-! Structure of the chunk windows. -/

/-- When the window loop terminates, its windows start at the cursor, have ends
`min (start + chunk) end`, stay inside `[cursor, end]`, are pairwise disjoint,
cover every day of `[cursor, end]`, and are consecutive (each window starts one
day after its predecessor ends). -/
theorem chunkWindows_spec {e c : Int} (hc : 0 ≤ c) :
    ∀ (fuel : Nat) (cur : Int) (ws : List (Int × Int)),
      chunkWindows e c fuel cur = some ws →
      (∀ w ∈ ws, cur ≤ w.1 ∧ w.1 ≤ w.2 ∧ w.2 ≤ e ∧ w.2 = min (w.1 + c) e) ∧
        ws.Pairwise (fun p q => p.2 < q.1) ∧
        (∀ t, cur ≤ t → t ≤ e → ∃ w ∈ ws, w.1 ≤ t ∧ t ≤ w.2) ∧
        ws.Chain' (fun p q => q.1 = p.2 + 1) ∧
        (e < cur → ws = []) ∧
        (cur ≤ e → ∃ ws', ws = (cur, min (cur + c) e) :: ws') := by
  intro fuel
  induction fuel with
  | zero =>
    intro cur ws h
    rw [chunkWindows] at h
    by_cases hce : cur ≤ e
    · rw [if_pos hce] at h
      exact Option.noConfusion h
    · rw [if_neg hce] at h
      injection h with h
      subst h
      refine ⟨fun w hw => absurd hw (List.not_mem_nil w), List.Pairwise.nil,
        fun t h1 h2 => absurd (le_trans h1 h2) hce, List.chain'_nil,
        fun _ => rfl, fun hle => absurd hle hce⟩
  | succ fuel ih =>
    intro cur ws h
    rw [chunkWindows] at h
    by_cases hce : cur ≤ e
    · rw [if_pos hce] at h
      obtain ⟨l, hl, hws⟩ := Option.map_eq_some'.mp h
      subst hws
      have hm1 : cur ≤ min (cur + c) e := by omega
      have hm2 : min (cur + c) e ≤ e := by omega
      obtain ⟨ihmem, ihpw, ihcov, ihch, ihnil, ihhd⟩ := ih (min (cur + c) e + 1) l hl
      refine ⟨?_, ?_, ?_, ?_, ?_, ?_⟩
      · intro w hw
        rcases List.mem_cons.mp hw with rfl | hw
        · exact ⟨le_refl _, hm1, hm2, rfl⟩
        · obtain ⟨h1, h2, h3, h4⟩ := ihmem w hw
          exact ⟨by omega, h2, h3, h4⟩
      · refine List.Pairwise.cons ?_ ihpw
        intro q hq
        have h1 := (ihmem q hq).1
        show min (cur + c) e < q.1
        omega
      · intro t h1 h2
        by_cases htm : t ≤ min (cur + c) e
        · exact ⟨(cur, min (cur + c) e), List.mem_cons_self _ _, h1, htm⟩
        · obtain ⟨w, hw, hw1, hw2⟩ := ihcov t (by omega) h2
          exact ⟨w, List.mem_cons_of_mem _ hw, hw1, hw2⟩
      · cases l with
        | nil => exact List.chain'_singleton _
        | cons q l' =>
          have hq : min (cur + c) e + 1 ≤ e := by
            by_contra hlt
            exact absurd (ihnil (by omega)) (List.cons_ne_nil q l')
          obtain ⟨ws', hws'⟩ := ihhd hq
          rw [List.chain'_cons]
          injection hws' with hq1 hq2
          constructor
          · rw [hq1]
          · exact ihch
      · intro hlt
        exact absurd hlt (not_lt.mpr hce)
      · intro _
        exact ⟨l, rfl⟩
    · rw [if_neg hce] at h
      injection h with h
      subst h
      refine ⟨fun w hw => absurd hw (List.not_mem_nil w), List.Pairwise.nil,
        fun t h1 h2 => absurd (le_trans h1 h2) hce, List.chain'_nil,
        fun _ => rfl, fun hle => absurd hle hce⟩

/-- A successfully computed empty window list means the range was empty. -/
theorem chunkWindows_nil {e c : Int} {fuel : Nat} {cur : Int}
    (h : chunkWindows e c fuel cur = some []) : e < cur := by
  by_contra hlt
  have hce : cur ≤ e := by omega
  cases fuel with
  | zero =>
    rw [chunkWindows, if_pos hce] at h
    exact Option.noConfusion h
  | succ fuel =>
    rw [chunkWindows, if_pos hce] at h
    obtain ⟨l, _, hws⟩ := Option.map_eq_some'.mp h
    exact List.noConfusion hws

/-! Behaviour of the collector over an honest service. -/

theorem svcOfTable_mem {D : List Row} {a b : Int} {r : Row} :
    r ∈ svcOfTable D a b ↔ r ∈ D ∧ a ≤ r.dt ∧ r.dt ≤ b := by
  unfold svcOfTable
  rw [mem_sortByDt, List.mem_filter, decide_eq_true_iff]

theorem svcOfTable_keysNodup {D : List Row} (hD : KeysNodup D) (a b : Int) :
    KeysNodup (svcOfTable D a b) :=
  keysNodup_of_perm (sortByDt_perm _).symm
    (List.Pairwise.sublist (List.filter_sublist D) hD)

/-- Over an honest service, the concatenation of the per-window frames is
key-unique and holds exactly the table readings inside `[cursor, end]`. -/
theorem framesFlatten_spec {D : List Row} (hD : KeysNodup D) {e c : Int}
    (hc : 0 ≤ c) :
    ∀ (fuel : Nat) (cur : Int) (ws : List (Int × Int)),
      chunkWindows e c fuel cur = some ws →
      KeysNodup ((ws.map fun w => svcOfTable D w.1 w.2).flatten) ∧
        ∀ r, r ∈ (ws.map fun w => svcOfTable D w.1 w.2).flatten ↔
          r ∈ D ∧ cur ≤ r.dt ∧ r.dt ≤ e := by
  intro fuel
  induction fuel with
  | zero =>
    intro cur ws h
    rw [chunkWindows] at h
    by_cases hce : cur ≤ e
    · rw [if_pos hce] at h
      exact Option.noConfusion h
    · rw [if_neg hce] at h
      injection h with h
      subst h
      refine ⟨List.Pairwise.nil, fun r => ?_⟩
      simp only [List.map_nil, List.flatten_nil, List.not_mem_nil, false_iff]
      rintro ⟨-, h1, h2⟩
      exact hce (le_trans h1 h2)
  | succ fuel ih =>
    intro cur ws h
    rw [chunkWindows] at h
    by_cases hce : cur ≤ e
    · rw [if_pos hce] at h
      obtain ⟨l, hl, hws⟩ := Option.map_eq_some'.mp h
      subst hws
      obtain ⟨ihnd, ihmem⟩ := ih _ l hl
      have hm1 : cur ≤ min (cur + c) e := by omega
      have hm2 : min (cur + c) e ≤ e := by omega
      simp only [List.map_cons, List.flatten_cons]
      constructor
      · unfold KeysNodup
        rw [List.pairwise_append]
        refine ⟨svcOfTable_keysNodup hD _ _, ihnd, ?_⟩
        intro a ha b hb
        have ha' := svcOfTable_mem.mp ha
        have hb' := (ihmem b).mp hb
        have : a.dt ≤ min (cur + c) e := ha'.2.2
        have : min (cur + c) e + 1 ≤ b.dt := hb'.2.1
        omega
      · intro r
        rw [List.mem_append, svcOfTable_mem, ihmem r]
        constructor
        · rintro (⟨hD', h1, h2⟩ | ⟨hD', h1, h2⟩)
          · exact ⟨hD', h1, by omega⟩
          · exact ⟨hD', by omega, h2⟩
        · rintro ⟨hD', h1, h2⟩
          by_cases hm : r.dt ≤ min (cur + c) e
          · exact Or.inl ⟨hD', h1, hm⟩
          · exact Or.inr ⟨hD', by omega, h2⟩
    · rw [if_neg hce] at h
      injection h with h
      subst h
      refine ⟨List.Pairwise.nil, fun r => ?_⟩
      simp only [List.map_nil, List.flatten_nil, List.not_mem_nil, false_iff]
      rintro ⟨-, h1, h2⟩
      exact hce (le_trans h1 h2)

/-- Over an honest service and a key-unique table, a terminated collection over
`[start, end]` is exactly the table filtered to the range and sorted: the
windows are invisible in the result. -/
theorem fetch_all_eq_table {D : List Row} (hD : KeysNodup D) {s e c : Int}
    (hc : 0 ≤ c) {fuel : Nat} {out : List Row}
    (h : fetch_all_in_chunks (svcOfTable D) s e c fuel = some out) :
    out = sortByDt (D.filter fun r => decide (s ≤ r.dt ∧ r.dt ≤ e)) := by
  unfold fetch_all_in_chunks at h
  obtain ⟨ws, hws, hout⟩ := Option.map_eq_some'.mp h
  cases ws with
  | nil =>
    have he : e < s := chunkWindows_nil hws
    have hout' : ([] : List Row) = out := hout
    have hfil : (D.filter fun r => decide (s ≤ r.dt ∧ r.dt ≤ e)) = [] := by
      rw [List.filter_eq_nil_iff]
      intro r hr
      rw [decide_eq_true_iff]
      rintro ⟨h1, h2⟩
      omega
    rw [← hout', hfil]
    rfl
  | cons w ws' =>
    have hout' :
        sortByDt (dedupByDt
          (((w :: ws').map fun p => svcOfTable D p.1 p.2).flatten)) = out := hout
    obtain ⟨hnd, hmem⟩ := framesFlatten_spec hD hc fuel s _ hws
    rw [dedupByDt_eq_self hnd] at hout'
    rw [← hout']
    refine sortByDt_eq_of_mem_iff hnd
      (List.Pairwise.sublist (List.filter_sublist D) hD) ?_
    intro r
    rw [hmem r, List.mem_filter, decide_eq_true_iff]

/-! Termination and divergence of the window loop. -/

/-- With a negative chunk length the cursor never passes `end`: the loop runs
out of any amount of fuel, i.e. the source loop never terminates. -/
theorem chunkWindows_neg {e c : Int} (hc : c ≤ -1) :
    ∀ (fuel : Nat) (cur : Int), cur ≤ e → chunkWindows e c fuel cur = none := by
  intro fuel
  induction fuel with
  | zero =>
    intro cur hce
    rw [chunkWindows, if_pos hce]
  | succ fuel ih =>
    intro cur hce
    rw [chunkWindows, if_pos hce]
    have hnext : min (cur + c) e + 1 ≤ e := by omega
    rw [ih _ hnext]
    rfl

/-- An empty range produces zero windows for any fuel, even zero. -/
theorem chunkWindows_empty_range {e c cur : Int} (h : e < cur) (fuel : Nat) :
    chunkWindows e c fuel cur = some [] := by
  cases fuel <;> rw [chunkWindows, if_neg (not_le.mpr h)]

/-- With a non-negative chunk length, fuel equal to the number of days of the
range is enough for the window loop to finish. -/
theorem chunkWindows_isSome {e c : Int} (hc : 0 ≤ c) :
    ∀ (fuel : Nat) (cur : Int), (e + 1 - cur).toNat ≤ fuel →
      (chunkWindows e c fuel cur).isSome = true := by
  intro fuel
  induction fuel with
  | zero =>
    intro cur hf
    have h : e < cur := by omega
    rw [chunkWindows, if_neg (not_le.mpr h)]
    rfl
  | succ fuel ih =>
    intro cur hf
    by_cases hce : cur ≤ e
    · rw [chunkWindows, if_pos hce]
      have h2 : (e + 1 - (min (cur + c) e + 1)).toNat ≤ fuel := by omega
      obtain ⟨l, hl⟩ := Option.isSome_iff_exists.mp (ih _ h2)
      rw [hl]
      rfl
    · rw [chunkWindows, if_neg hce]
      rfl

/-! Facts about the outer join. -/

/-- A key-unique frame looks up any of its own rows to that row's value. -/
theorem lookupVal_of_mem {l : List Row} {r : Row} (hl : KeysNodup l)
    (hr : r ∈ l) : lookupVal l r.dt = some r.val := by
  unfold lookupVal
  rw [(find?_eq_iff_mem hl).mp ⟨hr, rfl⟩]
  rfl

/-- Looking up a timestamp no row carries yields nothing. -/
theorem lookupVal_eq_none {l : List Row} {t : Int}
    (h : ∀ r ∈ l, r.dt ≠ t) : lookupVal l t = none := by
  unfold lookupVal
  rw [List.find?_eq_none.mpr]
  · rfl
  · intro r hr
    simp only [decide_eq_true_eq]
    exact h r hr

/-- Reading of a false `hasDt` test. -/
theorem hasDt_eq_false_iff {l : List Row} {t : Int} :
    hasDt l t = false ↔ ∀ r ∈ l, r.dt ≠ t := by
  unfold hasDt
  rw [← Bool.not_eq_true, List.any_eq_true]
  simp only [decide_eq_true_eq, not_exists, not_and, ne_eq]

/-! Facts about the earliest-date search. -/

theorem ydate_le_def {a b : YDate} :
    a ≤ b ↔ (a.y < b.y ∨ (a.y = b.y ∧ a.d ≤ b.d)) := Iff.rfl

/-- The running minimum of `serMin` is one of the dates it folded over. -/
theorem foldl_ydMin_cases :
    ∀ (rs : List YRow) (a : YDate),
      rs.foldl (fun m x => ydMin m x.dt) a = a ∨
        ∃ x ∈ rs, rs.foldl (fun m x => ydMin m x.dt) a = x.dt := by
  intro rs
  induction rs with
  | nil => exact fun a => Or.inl rfl
  | cons x xs ih =>
    intro a
    rw [List.foldl_cons]
    rcases ih (ydMin a x.dt) with h | ⟨z, hz, h⟩
    · by_cases hle : a ≤ x.dt
      · left
        rw [h]
        unfold ydMin
        rw [if_pos hle]
      · right
        refine ⟨x, List.mem_cons_self x xs, ?_⟩
        rw [h]
        unfold ydMin
        rw [if_neg hle]
    · exact Or.inr ⟨z, List.mem_cons_of_mem x hz, h⟩

theorem serMin_cases (r : YRow) (rs : List YRow) :
    serMin r rs = r.dt ∨ ∃ x ∈ rs, serMin r rs = x.dt :=
  foldl_ydMin_cases rs r.dt

/-- Any non-empty response of an honest table service to a calendar-year window
has its minimum date inside that year. -/
theorem ysvcOfTable_year {D : List YRow} {z : Int} {r : YRow} {rs : List YRow}
    (h : ysvcOfTable D (jan1 z) (dec31 z) = r :: rs) : (serMin r rs).y = z := by
  have hall : ∀ x ∈ r :: rs, jan1 z ≤ x.dt ∧ x.dt ≤ dec31 z := by
    intro x hx
    rw [← h] at hx
    unfold ysvcOfTable at hx
    have hx2 := (List.mem_filter.mp hx).2
    rw [decide_eq_true_iff] at hx2
    exact hx2
  have hy : ∀ v : YDate, jan1 z ≤ v → v ≤ dec31 z → v.y = z := by
    intro v h1 h2
    rw [ydate_le_def] at h1 h2
    simp only [jan1, dec31] at h1 h2
    rcases h1 with h1 | ⟨h1, -⟩ <;> rcases h2 with h2 | ⟨h2, -⟩ <;> omega
  rcases serMin_cases r rs with hm | ⟨x, hx, hm⟩
  · obtain ⟨h1, h2⟩ := hall r (List.mem_cons_self r rs)
    rw [hm]
    exact hy r.dt h1 h2
  · obtain ⟨h1, h2⟩ := hall x (List.mem_cons_of_mem r hx)
    rw [hm]
    exact hy x.dt h1 h2

/-- When every anchor-year probe comes back empty the coarse probe fails. -/
theorem probeLoop_none (svc : YDate → YDate → List YRow) :
    ∀ ys, (∀ y ∈ ys, svc (jan1 y) (dec31 y) = []) → probeLoop svc ys = none := by
  intro ys
  induction ys with
  | nil => exact fun _ => rfl
  | cons y ys ih =>
    intro h
    have hy := h y (List.mem_cons_self y ys)
    simp only [probeLoop, hy]
    exact ih fun z hz => h z (List.mem_cons_of_mem y hz)

/-- Invariant of the narrowing loop under a year-accurate service: if the loop
finishes above 1900 then its last fetch was the calendar year immediately below
the returned date's year, and that fetch was empty. -/
theorem narrowGo_last {svc : YDate → YDate → List YRow}
    (H : ∀ (z : Int) (r : YRow) (rs : List YRow),
      svc (jan1 z) (dec31 z) = r :: rs → (serMin r rs).y = z) :
    ∀ (fuel : Nat) (y : Int) (ef : YDate), ef.y = y → (y - 1900).toNat < fuel →
      1900 < (narrowGo svc fuel y ef).ef.y →
      svc (jan1 ((narrowGo svc fuel y ef).ef.y - 1))
          (dec31 ((narrowGo svc fuel y ef).ef.y - 1)) = [] ∧
        (narrowGo svc fuel y ef).lastProbe =
          some ((narrowGo svc fuel y ef).ef.y - 1) := by
  intro fuel
  induction fuel with
  | zero =>
    intro y ef hy hf
    exact absurd hf (Nat.not_lt_zero _)
  | succ fuel ih =>
    intro y ef hy hf
    by_cases h19 : 1900 < y
    · cases hsvc : svc (jan1 (y - 1)) (dec31 (y - 1)) with
      | nil =>
        simp only [narrowGo, if_pos h19, hsvc]
        intro _
        rw [hy]
        exact ⟨hsvc, rfl⟩
      | cons r rs =>
        have hy' : (serMin r rs).y = y - 1 := H (y - 1) r rs hsvc
        have hf' : (y - 1 - 1900).toNat < fuel := by omega
        have ihh := ih (y - 1) (serMin r rs) hy' hf'
        simp only [narrowGo, if_pos h19, hsvc]
        intro hgt
        obtain ⟨hempty, hlast⟩ := ihh hgt
        refine ⟨hempty, ?_⟩
        rw [hlast]
        rfl
    · simp only [narrowGo, if_neg h19]
      intro hgt
      rw [hy] at hgt
      exact absurd hgt h19

instance : DecidablePred StrictByDt := fun l => by
  unfold StrictByDt
  exact inferInstance

theorem parseRec_eq_some {rec : RawRec} {r : Row} :
    parseRec rec = some r ↔ rec.dt = some r.dt ∧ rec.val = some r.val := by
  rcases rec with ⟨hd, hv⟩
  rcases r with ⟨rd, rv⟩
  rcases hd with _ | d <;> rcases hv with _ | v <;> simp [parseRec]

/-! The claims. -/

/-- C1: for every response payload, the Series returned by `fetch_cdec` is
sorted ascending by timestamp and contains exactly the rows whose timestamp and
value both parsed and whose value is not the sentinel constant -9999; a null
payload gives the empty Series, and rows failing a cleaning step are merely
dropped (the function is total, no error path exists). -/
theorem c1_cleaning :
    fetch_cdec none = [] ∧
      ∀ recs : List RawRec,
        List.Sorted rowLe (fetch_cdec (some recs)) ∧
          ∀ r : Row,
            r ∈ fetch_cdec (some recs) ↔
              (∃ rec ∈ recs, rec.dt = some r.dt ∧ rec.val = some r.val) ∧
                r.val ≠ SENTINEL := by
  refine ⟨rfl, fun recs => ?_⟩
  by_cases hre : recs = []
  · subst hre
    exact ⟨List.sorted_nil, by simp [fetch_cdec]⟩
  · have hne : ¬(recs.isEmpty = true) := by
      simp only [List.isEmpty_iff]
      exact hre
    have hfc : fetch_cdec (some recs) = cleanRows recs := by
      simp only [fetch_cdec, if_neg hne]
    rw [hfc]
    unfold cleanRows
    refine ⟨sortByDt_sorted _, fun r => ?_⟩
    rw [mem_sortByDt, List.mem_filter, List.mem_filterMap, decide_eq_true_iff]
    constructor
    · rintro ⟨⟨rec, hrec, hp⟩, hs⟩
      exact ⟨⟨rec, hrec, (parseRec_eq_some.mp hp).1, (parseRec_eq_some.mp hp).2⟩, hs⟩
    · rintro ⟨⟨rec, hrec, h1, h2⟩, hs⟩
      exact ⟨⟨rec, hrec, parseRec_eq_some.mpr ⟨h1, h2⟩⟩, hs⟩

/-- C2 counterexample: `fetch_cdec` itself does not deduplicate — a payload
holding two valid readings with the same timestamp yields a Series with a
duplicate timestamp, so not every Series out of the cleaning pipeline has
strictly increasing timestamps. -/
theorem c2_counterexample :
    fetch_cdec (some [⟨some 5, some 1⟩, ⟨some 5, some 2⟩]) =
        [Row.mk 5 1, Row.mk 5 2] ∧
      ¬ StrictByDt (fetch_cdec (some [⟨some 5, some 1⟩, ⟨some 5, some 2⟩])) :=
  ⟨by decide, by decide⟩

/-- C2 amended: every Series produced by a terminated `fetch_all_in_chunks` has
strictly increasing timestamps (at most one reading per timestamp), and the
surviving row at each timestamp is the first occurrence in concatenation order
of the per-window frames (deduplication precedes the final sort and keeps the
first); the raw `fetch_cdec` output alone is only sorted non-strictly and may
retain duplicate timestamps. -/
theorem c2_merge_unique (svc : Int → Int → List Row) (s e c : Int) (fuel : Nat)
    (ws : List (Int × Int)) (out : List Row)
    (hw : chunkWindows e c fuel s = some ws)
    (h : fetch_all_in_chunks svc s e c fuel = some out) :
    StrictByDt out ∧
      ∀ (t : Int) (r : Row),
        (r ∈ out ∧ r.dt = t) ↔
          ((ws.map fun w => svc w.1 w.2).flatten.find? fun x => decide (x.dt = t))
            = some r := by
  unfold fetch_all_in_chunks at h
  rw [hw, Option.map_some'] at h
  injection h with h
  subst h
  cases ws with
  | nil =>
    refine ⟨List.Pairwise.nil, fun t r => ?_⟩
    show (r ∈ ([] : List Row) ∧ r.dt = t) ↔
      (([] : List Row).find? fun x => decide (x.dt = t)) = some r
    simp
  | cons w ws' =>
    refine ⟨?_, ?_⟩
    · exact strictByDt_of_sorted_keysNodup (sortByDt_sorted _)
        (keysNodup_of_perm (sortByDt_perm _).symm (dedupByDt_keysNodup _))
    · intro t r
      show (r ∈ sortByDt (dedupByDt
          (((w :: ws').map fun p => svc p.1 p.2).flatten)) ∧ r.dt = t) ↔ _
      rw [show (r ∈ sortByDt (dedupByDt
            (((w :: ws').map fun p => svc p.1 p.2).flatten)) ↔
          r ∈ dedupByDt (((w :: ws').map fun p => svc p.1 p.2).flatten))
          from mem_sortByDt]
      rw [find?_eq_iff_mem (dedupByDt_keysNodup _)]
      show (dedupGo _ []).find? _ = some r ↔ _
      rw [dedupGo_find? (List.not_mem_nil t)]

/-- C2 witness: the merge-uniqueness theorem evaluated on a concrete honest
service over three readings collected in two windows. -/
theorem c2_merge_unique_witness :
    StrictByDt [Row.mk 0 1, Row.mk 2 5, Row.mk 3 7] ∧
      ∀ (t : Int) (r : Row),
        (r ∈ [Row.mk 0 1, Row.mk 2 5, Row.mk 3 7] ∧ r.dt = t) ↔
          ((([((0:Int), (1:Int)), (2, 3)]).map fun w =>
              svcOfTable [Row.mk 0 1, Row.mk 2 5, Row.mk 3 7] w.1 w.2).flatten.find?
            fun x => decide (x.dt = t)) = some r :=
  c2_merge_unique (svcOfTable [Row.mk 0 1, Row.mk 2 5, Row.mk 3 7]) 0 3 1 10
    [(0, 1), (2, 3)] [Row.mk 0 1, Row.mk 2 5, Row.mk 3 7] (by decide) (by decide)

/-- C3 counterexample: collecting 2020-01-01 (day 0) through 2020-03-01 (day 60)
with chunk_days = 30 issues 2 window fetches, not 3: the loop's windows span
chunk_days + 1 inclusive days each (day 0-30 is Jan 1-Jan 31), because the
window end is `cur + chunk_days` and both bounds are inclusive. -/
theorem c3_counterexample :
    chunkWindows 60 30 100 0 = some [(0, 30), (31, 60)] ∧
      ¬(chunkWindows 60 30 100 0).map List.length = some 3 :=
  ⟨by decide, by decide⟩

/-- C3 amended: the loop partitions `[start, end]` into consecutive,
non-overlapping inclusive windows each ending at `min (start + chunk_days, end)`
— hence spanning chunk_days + 1 inclusive days, with the last truncated at end —
which are pairwise disjoint, cover every day of the range, and adjoin with no
shared boundary day; for 2020-01-01..2020-03-01 with chunk_days = 30 this
yields exactly 2 window fetches (see the witness). -/
theorem c3_windows (e c : Int) (hc : 0 ≤ c) (fuel : Nat) (s : Int)
    (ws : List (Int × Int)) (h : chunkWindows e c fuel s = some ws) :
    (∀ w ∈ ws, s ≤ w.1 ∧ w.1 ≤ w.2 ∧ w.2 ≤ e ∧ w.2 = min (w.1 + c) e) ∧
      ws.Pairwise (fun p q => p.2 < q.1) ∧
      (∀ t, s ≤ t → t ≤ e → ∃ w ∈ ws, w.1 ≤ t ∧ t ≤ w.2) ∧
      ws.Chain' fun p q => q.1 = p.2 + 1 := by
  obtain ⟨h1, h2, h3, h4, -, -⟩ := chunkWindows_spec hc fuel s ws h
  exact ⟨h1, h2, h3, h4⟩

/-- C3 witness: the window structure evaluated at the 2020-01-01..2020-03-01,
chunk_days = 30 collection, whose two windows are days 0-30 and 31-60. -/
theorem c3_windows_witness :
    (∀ w ∈ [((0:Int), (30:Int)), (31, 60)],
        (0:Int) ≤ w.1 ∧ w.1 ≤ w.2 ∧ w.2 ≤ 60 ∧ w.2 = min (w.1 + 30) 60) ∧
      ([((0:Int), (30:Int)), (31, 60)]).Pairwise (fun p q => p.2 < q.1) ∧
      (∀ t : Int, 0 ≤ t → t ≤ 60 →
        ∃ w ∈ [((0:Int), (30:Int)), (31, 60)], w.1 ≤ t ∧ t ≤ w.2) ∧
      ([((0:Int), (30:Int)), (31, 60)]).Chain' (fun p q => q.1 = p.2 + 1) :=
  c3_windows 60 30 (by decide) 100 0 [(0, 30), (31, 60)] (by decide)

/-- C6 counterexample: a negative chunk_days raises nothing — the window loop
simply never terminates (after 1000 iterations the cursor still has not passed
the end), so no ValidationError-like failure is observable anywhere. -/
theorem c6_counterexample :
    fetch_all_in_chunks (fun _ _ => []) 0 10 (-1) 1000 = none := by
  unfold fetch_all_in_chunks
  rw [chunkWindows_neg (by decide) 1000 0 (by decide)]
  rfl

/-- C6 amended: a negative chunk_days is not validated and never raises:
the collection loop diverges (it exhausts every amount of fuel) whenever
start <= end, because the cursor never advances past the end; start > end is
indeed not an error and yields the empty Series with zero window fetches. -/
theorem c6_validation (s e c : Int) (fuel : Nat) :
    (c ≤ -1 → s ≤ e → chunkWindows e c fuel s = none ∧
        ∀ svc : Int → Int → List Row,
          fetch_all_in_chunks svc s e c fuel = none) ∧
      (e < s → chunkWindows e c fuel s = some [] ∧
        ∀ svc : Int → Int → List Row,
          fetch_all_in_chunks svc s e c fuel = some []) := by
  constructor
  · intro hc hse
    have h := chunkWindows_neg hc fuel s hse
    refine ⟨h, fun svc => ?_⟩
    unfold fetch_all_in_chunks
    rw [h]
    rfl
  · intro hes
    have h := @chunkWindows_empty_range e c s hes fuel
    refine ⟨h, fun svc => ?_⟩
    unfold fetch_all_in_chunks
    rw [h]
    rfl

/-- C6 witness: the divergence and the empty-range case evaluated concretely. -/
theorem c6_validation_witness :
    (chunkWindows 10 (-1) 5 0 = none ∧
        fetch_all_in_chunks (fun _ _ => []) 0 10 (-1) 5 = none) ∧
      (chunkWindows 3 7 5 5 = some [] ∧
        fetch_all_in_chunks (fun _ _ => []) 5 3 7 5 = some []) :=
  ⟨⟨((c6_validation 0 10 (-1) 5).1 (by decide) (by decide)).1,
      ((c6_validation 0 10 (-1) 5).1 (by decide) (by decide)).2 _⟩,
    ⟨((c6_validation 5 3 7 5).2 (by decide)).1,
      ((c6_validation 5 3 7 5).2 (by decide)).2 _⟩⟩

/-- C7: over an honest deterministic service drawn from a key-unique table with
chunk_days >= 0, splitting a collection at any interior point `m` and combining
the two halves exactly the way the collector merges frames (concatenate,
deduplicate by timestamp keeping the first, sort ascending) reproduces the
one-call collection over the full range. -/
theorem c7_split_transparent {D : List Row} (hD : KeysNodup D) {s m e c : Int}
    (hc : 0 ≤ c) (hsm : s ≤ m) (hme : m < e) {f1 f2 f3 : Nat}
    {A B C : List Row}
    (hA : fetch_all_in_chunks (svcOfTable D) s m c f1 = some A)
    (hB : fetch_all_in_chunks (svcOfTable D) (m + 1) e c f2 = some B)
    (hC : fetch_all_in_chunks (svcOfTable D) s e c f3 = some C) :
    sortByDt (dedupByDt (A ++ B)) = C := by
  have hA' := fetch_all_eq_table hD hc hA
  have hB' := fetch_all_eq_table hD hc hB
  have hC' := fetch_all_eq_table hD hc hC
  subst hA' hB' hC'
  have hFil : ∀ (a b : Int),
      KeysNodup (D.filter fun r => decide (a ≤ r.dt ∧ r.dt ≤ b)) :=
    fun a b => List.Pairwise.sublist (List.filter_sublist D) hD
  have hABk : KeysNodup
      (sortByDt (D.filter fun r => decide (s ≤ r.dt ∧ r.dt ≤ m)) ++
        sortByDt (D.filter fun r => decide (m + 1 ≤ r.dt ∧ r.dt ≤ e))) := by
    unfold KeysNodup
    rw [List.pairwise_append]
    refine ⟨keysNodup_of_perm (sortByDt_perm _).symm (hFil s m),
      keysNodup_of_perm (sortByDt_perm _).symm (hFil (m + 1) e), ?_⟩
    intro a ha b hb
    rw [mem_sortByDt, List.mem_filter, decide_eq_true_iff] at ha hb
    have h1 := ha.2.2
    have h2 := hb.2.1
    omega
  rw [dedupByDt_eq_self hABk]
  refine sortByDt_eq_of_mem_iff hABk (hFil s e) ?_
  intro r
  simp only [List.mem_append, mem_sortByDt, List.mem_filter, decide_eq_true_iff]
  constructor
  · rintro (⟨hD', h1, h2⟩ | ⟨hD', h1, h2⟩) <;> exact ⟨hD', by omega, by omega⟩
  · rintro ⟨hD', h1, h2⟩
    by_cases hm2 : r.dt ≤ m
    · exact Or.inl ⟨hD', h1, hm2⟩
    · exact Or.inr ⟨hD', by omega, h2⟩

/-- C7 witness: the split-merge identity evaluated on a three-reading table
split at day 1 inside the range 0..3 with chunk_days = 1. -/
theorem c7_split_transparent_witness :
    sortByDt (dedupByDt ([Row.mk 0 1] ++ [Row.mk 2 5, Row.mk 3 7])) =
      [Row.mk 0 1, Row.mk 2 5, Row.mk 3 7] :=
  @c7_split_transparent [Row.mk 0 1, Row.mk 2 5, Row.mk 3 7] (by decide)
    0 1 3 1 (by decide) (by decide) (by decide) 10 10 10
    [Row.mk 0 1] [Row.mk 2 5, Row.mk 3 7] [Row.mk 0 1, Row.mk 2 5, Row.mk 3 7]
    (by decide) (by decide) (by decide)

/-- C9: with non-negative chunk_days the window loop terminates after finitely
many fetches — fuel equal to the day count of the range already suffices —
because each iteration advances the cursor from `cur` to
`min (cur + chunk_days) end + 1`, strictly past `cur`. -/
theorem c9_termination (s e c : Int) (hc : 0 ≤ c) :
    (chunkWindows e c (e + 1 - s).toNat s).isSome = true ∧
      (∀ svc : Int → Int → List Row,
        (fetch_all_in_chunks svc s e c (e + 1 - s).toNat).isSome = true) ∧
      ∀ cur : Int, cur ≤ e → cur < min (cur + c) e + 1 := by
  have h := chunkWindows_isSome hc (e + 1 - s).toNat s (le_refl _)
  refine ⟨h, fun svc => ?_, fun cur hce => by omega⟩
  unfold fetch_all_in_chunks
  obtain ⟨ws, hws⟩ := Option.isSome_iff_exists.mp h
  rw [hws]
  rfl

/-- C9 witness: termination evaluated on the 61-day range with chunk 30. -/
theorem c9_termination_witness :
    (chunkWindows 60 30 ((60:Int) + 1 - 0).toNat 0).isSome = true ∧
      (∀ svc : Int → Int → List Row,
        (fetch_all_in_chunks svc 0 60 30 ((60:Int) + 1 - 0).toNat).isSome = true) ∧
      ∀ cur : Int, cur ≤ 60 → cur < min (cur + 30) 60 + 1 :=
  c9_termination 0 60 30 (by decide)

/-- A concrete global table realising the setting of scenario B: one reading in
every year from 1900 through 1970, the 1970 reading on day 152 (June 1) and the
earlier ones on day 150, so every calendar-year window back through 1900 is
non-empty with strictly decreasing minimum dates. -/
def tblB : List YRow :=
  (List.range 71).map fun i =>
    ⟨⟨1900 + (i : Int), if i = 70 then 152 else 150⟩, 1⟩

/-- C4 counterexample: under the scenario-B service — the 1970 anchor window is
non-empty with minimum June 1 1970, and every year back through 1900 is
non-empty — the search does NOT perform 70 narrowing iterations: the anchor list
is probed in ascending order starting at 1900, that first probe already hits,
so the narrowing loop is entered at y = 1900, its guard fails at once, and 0
narrowing iterations run (the returned date, the 1900 window's minimum, is as
the claim says). -/
theorem c4_counterexample :
    ysvcOfTable tblB (jan1 1970) (dec31 1970) = [⟨⟨1970, 152⟩, 1⟩] ∧
      ((List.range 70).all fun i =>
        !(ysvcOfTable tblB (jan1 (1900 + (i : Int)))
            (dec31 (1900 + (i : Int)))).isEmpty) = true ∧
      probeLoop (ysvcOfTable tblB) probeYears = some ⟨1900, 150⟩ ∧
      find_earliest (ysvcOfTable tblB) ⟨2026, 1⟩ = some ⟨1900, 150⟩ ∧
      (narrowGo (ysvcOfTable tblB)
          ((((⟨1900, 150⟩ : YDate).y - 1900).toNat) + 1)
          (⟨1900, 150⟩ : YDate).y ⟨1900, 150⟩).iters = 0 :=
  ⟨by decide, by decide, by decide, by decide, by decide⟩

/-- C4 amended: whenever the 1900 anchor window itself is non-empty (as in a
service with data in every year back through 1900) with its minimum date lying
in year 1900, `find_earliest` performs exactly 0 narrowing iterations — the
ascending anchor probe hits 1900 first, the narrowing guard y > 1900 fails
immediately — and returns the minimum date actually observed in the 1900
window. -/
theorem c4_anchor1900 (svc : YDate → YDate → List YRow) (today : YDate)
    (r : YRow) (rs : List YRow)
    (h1900 : svc (jan1 1900) (dec31 1900) = r :: rs)
    (hy : (serMin r rs).y = 1900) :
    find_earliest svc today = some (serMin r rs) ∧
      (narrowGo svc (((serMin r rs).y - 1900).toNat + 1) (serMin r rs).y
        (serMin r rs)).iters = 0 := by
  have hp : probeLoop svc probeYears = some (serMin r rs) := by
    simp only [probeYears, probeLoop, h1900]
  have hez : (((serMin r rs).y - 1900).toNat + 1) = 1 := by
    rw [hy]
    rfl
  have hng : narrowGo svc (((serMin r rs).y - 1900).toNat + 1) (serMin r rs).y
      (serMin r rs) = ⟨serMin r rs, 0, none⟩ := by
    rw [hez, hy]
    simp only [narrowGo]
    rw [if_neg (lt_irrefl (1900 : Int))]
  constructor
  · simp only [find_earliest, hp, hng]
  · rw [hng]

/-- C4 witness: the amended behaviour on a service with a single reading on day
150 of 1900. -/
theorem c4_anchor1900_witness :
    find_earliest (ysvcOfTable [⟨⟨1900, 150⟩, 1⟩]) ⟨2026, 1⟩ =
        some (serMin (YRow.mk ⟨1900, 150⟩ 1) []) ∧
      (narrowGo (ysvcOfTable [⟨⟨1900, 150⟩, 1⟩])
          (((serMin (YRow.mk ⟨1900, 150⟩ 1) []).y - 1900).toNat + 1)
          (serMin (YRow.mk ⟨1900, 150⟩ 1) []).y
          (serMin (YRow.mk ⟨1900, 150⟩ 1) [])).iters = 0 :=
  c4_anchor1900 (ysvcOfTable [⟨⟨1900, 150⟩, 1⟩]) ⟨2026, 1⟩
    (YRow.mk ⟨1900, 150⟩ 1) [] (by decide) (by decide)

/-- C5: when every one of the eight anchor-year probes returns an empty Series,
the search performs the single fallback probe over January 1 2000 .. today; an
empty fallback fails (the source raises, modelled as `none`), and a non-empty
fallback returns the fallback's minimum date directly, with no narrowing. -/
theorem c5_fallback (svc : YDate → YDate → List YRow) (today : YDate)
    (hA : ∀ y ∈ probeYears, svc (jan1 y) (dec31 y) = []) :
    (svc (jan1 2000) today = [] → find_earliest svc today = none) ∧
      ∀ (r : YRow) (rs : List YRow), svc (jan1 2000) today = r :: rs →
        find_earliest svc today = some (serMin r rs) := by
  have hp : probeLoop svc probeYears = none := probeLoop_none svc probeYears hA
  constructor
  · intro hf
    simp only [find_earliest, hp, hf]
  · intro r rs hf
    simp only [find_earliest, hp, hf]

/-- C5 witness: the always-empty service fails with the no-data error, and a
service whose only reading hides between the anchors (mid 2005) is found via
the fallback's minimum with no narrowing. -/
theorem c5_fallback_witness :
    find_earliest (fun _ _ => []) ⟨2026, 1⟩ = none ∧
      find_earliest (ysvcOfTable [⟨⟨2005, 99⟩, 3⟩]) ⟨2026, 1⟩ =
        some (serMin (YRow.mk ⟨2005, 99⟩ 3) []) :=
  ⟨(c5_fallback (fun _ _ => []) ⟨2026, 1⟩ (fun _ _ => rfl)).1 rfl,
    (c5_fallback (ysvcOfTable [⟨⟨2005, 99⟩, 3⟩]) ⟨2026, 1⟩ (by decide)).2
      (YRow.mk ⟨2005, 99⟩ 3) [] (by decide)⟩

/-- C10: under a year-accurate service, whenever `find_earliest` returns a date
`d` through the anchor path (the coarse probe succeeded) with `d`'s year above
1900, the narrowing loop's last fetched window was the full calendar year
immediately preceding `d`'s year and it came back empty — the returned date is
locally minimal at year granularity. -/
theorem c10_local_minimality (svc : YDate → YDate → List YRow) (today : YDate)
    (H : ∀ (z : Int) (r : YRow) (rs : List YRow),
      svc (jan1 z) (dec31 z) = r :: rs → (serMin r rs).y = z)
    (ef d : YDate)
    (hp : probeLoop svc probeYears = some ef)
    (hd : find_earliest svc today = some d)
    (hgt : 1900 < d.y) :
    svc (jan1 (d.y - 1)) (dec31 (d.y - 1)) = [] ∧
      (narrowGo svc ((ef.y - 1900).toNat + 1) ef.y ef).lastProbe =
        some (d.y - 1) := by
  have hd' : (narrowGo svc ((ef.y - 1900).toNat + 1) ef.y ef).ef = d := by
    simp only [find_earliest, hp] at hd
    injection hd
  rw [← hd'] at hgt ⊢
  exact narrowGo_last H ((ef.y - 1900).toNat + 1) ef.y ef rfl
    (Nat.lt_succ_self _) hgt

/-- C10 witness: a two-reading honest table (1950 and 1949) — the probe anchors
at 1950, narrowing moves once to 1949, the 1948 window is fetched last and is
empty. -/
theorem c10_local_minimality_witness :
    ysvcOfTable [⟨⟨1950, 40⟩, 7⟩, ⟨⟨1949, 30⟩, 8⟩]
        (jan1 ((⟨1949, 30⟩ : YDate).y - 1))
        (dec31 ((⟨1949, 30⟩ : YDate).y - 1)) = [] ∧
      (narrowGo (ysvcOfTable [⟨⟨1950, 40⟩, 7⟩, ⟨⟨1949, 30⟩, 8⟩])
          ((((⟨1950, 40⟩ : YDate).y - 1900).toNat) + 1)
          (⟨1950, 40⟩ : YDate).y ⟨1950, 40⟩).lastProbe =
        some ((⟨1949, 30⟩ : YDate).y - 1) :=
  c10_local_minimality (ysvcOfTable [⟨⟨1950, 40⟩, 7⟩, ⟨⟨1949, 30⟩, 8⟩])
    ⟨2026, 1⟩ (fun z r rs h => ysvcOfTable_year h) ⟨1950, 40⟩ ⟨1949, 30⟩
    (by decide) (by decide) (by decide)

/-- C8: `combine` is a full outer join on timestamp for key-unique inputs:
the output is sorted ascending with strictly increasing timestamps (exactly one
row per timestamp), a timestamp appears in the output precisely when it appears
in either input, every row's stage and flow fields are exactly the respective
inputs' lookups at its timestamp, and a timestamp present in only one input
leaves the other field absent (`none`), not zero and not dropped. -/
theorem c8_outer_join (a b : List Row) (ha : KeysNodup a) (hb : KeysNodup b) :
    List.Sorted combLe (combine a b) ∧
      (combine a b).Pairwise (fun p q => p.dt < q.dt) ∧
      (∀ t : Int, (∃ cr ∈ combine a b, cr.dt = t) ↔
        ((∃ r ∈ a, r.dt = t) ∨ ∃ r ∈ b, r.dt = t)) ∧
      (∀ cr ∈ combine a b,
        cr.stage = lookupVal a cr.dt ∧ cr.flow = lookupVal b cr.dt) ∧
      (∀ cr ∈ combine a b, (∀ r ∈ a, r.dt ≠ cr.dt) → cr.stage = none) ∧
      (∀ cr ∈ combine a b, (∀ r ∈ b, r.dt ≠ cr.dt) → cr.flow = none) := by
  have hperm : (combine a b).Perm
      ((a.map fun r => Comb.mk r.dt (some r.val) (lookupVal b r.dt)) ++
        ((b.filter fun r => !hasDt a r.dt).map fun r =>
          Comb.mk r.dt none (some r.val))) :=
    List.perm_insertionSort combLe _
  have hsorted : List.Sorted combLe (combine a b) :=
    List.sorted_insertionSort combLe _
  have hLne : ((a.map fun r => Comb.mk r.dt (some r.val) (lookupVal b r.dt)) ++
      ((b.filter fun r => !hasDt a r.dt).map fun r =>
        Comb.mk r.dt none (some r.val))).Pairwise
      fun p q => p.dt ≠ q.dt := by
    rw [List.pairwise_append]
    refine ⟨?_, ?_, ?_⟩
    · rw [List.pairwise_map]
      exact ha
    · rw [List.pairwise_map]
      exact List.Pairwise.sublist (List.filter_sublist b) hb
    · intro p hp q hq
      obtain ⟨x, hx, hxp⟩ := List.mem_map.mp hp
      obtain ⟨y, hy, hyq⟩ := List.mem_map.mp hq
      obtain ⟨hyb, hyg⟩ := List.mem_filter.mp hy
      have hyg' : hasDt a y.dt = false := by
        rwa [Bool.not_eq_true'] at hyg
      have hney := hasDt_eq_false_iff.mp hyg' x hx
      rw [← hxp, ← hyq]
      exact hney
  have hCne : (combine a b).Pairwise fun p q => p.dt ≠ q.dt :=
    (List.Perm.pairwise_iff (fun h => Ne.symm h) hperm).mpr hLne
  have hfields : ∀ cr ∈ combine a b,
      cr.stage = lookupVal a cr.dt ∧ cr.flow = lookupVal b cr.dt := by
    intro cr hcr
    rw [hperm.mem_iff, List.mem_append] at hcr
    rcases hcr with hcr | hcr
    · obtain ⟨x, hx, hxp⟩ := List.mem_map.mp hcr
      rw [← hxp]
      exact ⟨(lookupVal_of_mem ha hx).symm, rfl⟩
    · obtain ⟨y, hy, hyq⟩ := List.mem_map.mp hcr
      obtain ⟨hyb, hyg⟩ := List.mem_filter.mp hy
      have hyg' : hasDt a y.dt = false := by
        rwa [Bool.not_eq_true'] at hyg
      rw [← hyq]
      exact ⟨(lookupVal_eq_none (hasDt_eq_false_iff.mp hyg')).symm,
        (lookupVal_of_mem hb hyb).symm⟩
  refine ⟨hsorted, (hsorted.and hCne).imp fun h => lt_of_le_of_ne h.1 h.2,
    ?_, hfields, ?_, ?_⟩
  · intro t
    constructor
    · rintro ⟨cr, hcr, rfl⟩
      rw [hperm.mem_iff, List.mem_append] at hcr
      rcases hcr with hcr | hcr
      · obtain ⟨x, hx, hxp⟩ := List.mem_map.mp hcr
        exact Or.inl ⟨x, hx, by rw [← hxp]⟩
      · obtain ⟨y, hy, hyq⟩ := List.mem_map.mp hcr
        exact Or.inr ⟨y, (List.mem_filter.mp hy).1, by rw [← hyq]⟩
    · rintro (⟨r, hr, rfl⟩ | ⟨r, hr, rfl⟩)
      · refine ⟨Comb.mk r.dt (some r.val) (lookupVal b r.dt), ?_, rfl⟩
        rw [hperm.mem_iff, List.mem_append]
        exact Or.inl (List.mem_map.mpr ⟨r, hr, rfl⟩)
      · by_cases hH : hasDt a r.dt = true
        · obtain ⟨x, hx, hxd⟩ := List.any_eq_true.mp hH
          rw [decide_eq_true_iff] at hxd
          refine ⟨Comb.mk x.dt (some x.val) (lookupVal b x.dt), ?_, hxd⟩
          rw [hperm.mem_iff, List.mem_append]
          exact Or.inl (List.mem_map.mpr ⟨x, hx, rfl⟩)
        · refine ⟨Comb.mk r.dt none (some r.val), ?_, rfl⟩
          rw [hperm.mem_iff, List.mem_append]
          refine Or.inr (List.mem_map.mpr ⟨r, ?_, rfl⟩)
          rw [List.mem_filter]
          exact ⟨hr, by rw [Bool.not_eq_true']; exact Bool.eq_false_iff.mpr hH⟩
  · intro cr hcr hno
    rw [(hfields cr hcr).1, lookupVal_eq_none hno]
  · intro cr hcr hno
    rw [(hfields cr hcr).2, lookupVal_eq_none hno]

/-- C8 witness: the two-singleton instance of scenario D — stage reading at t1,
flow reading at t2, t1 different from t2 — yields exactly two rows, each with
one populated field and the other absent. -/
theorem c8_outer_join_witness :
    combine [Row.mk 1 5] [Row.mk 2 100] =
        [Comb.mk 1 (some 5) none, Comb.mk 2 none (some 100)] ∧
      ∀ cr ∈ combine [Row.mk 1 5] [Row.mk 2 100],
        cr.stage = lookupVal [Row.mk 1 5] cr.dt ∧
          cr.flow = lookupVal [Row.mk 2 100] cr.dt :=
  ⟨by decide,
    (c8_outer_join [Row.mk 1 5] [Row.mk 2 100] (by decide) (by decide)).2.2.2.1⟩

end CDEC
